import Mathlib

/-
Verification of the clade build-command extraction core.

Shallow embedding of the Python sources:
  clade/extensions/cc.py        (CC: dependency extraction pipeline)
  clade/extensions/macros.py    (Macros: definition/expansion folds)
  clade/extensions/typedefs.py  (Typedefs: typedef fold)
  clade/extensions/abstract.py  (Extension framework: registry, idempotency)

Python strings are modelled as Lean Strings; where Python iterates over
characters we work on the underlying character list so that every
definition is structurally recursive and kernel-evaluable.  Lines read
from files or line streams are modelled without their trailing newline
character, which is what every regular expression and strip operation
below observes (the source patterns never match a bare newline).
-/

namespace Clade

/-! ### Character and string primitives (Python str helpers) -/

/-- Python whitespace test for the ASCII range: the characters matched by
the regex class backslash-s.  `pyNonSpace c` holds when `c` is not
whitespace, i.e. when the regex class backslash-S matches `c`. -/
def pyNonSpace (c : Char) : Bool :=
  !(c == ' ' || c == '\t' || c == '\n' || c == '\r' || c == '\x0b' || c == '\x0c')

/-- Python `str.split(sep)` for a single-character separator `sep`:
keeps empty fields, so `"a  b".split(" ") = ["a", "", "b"]`. -/
def splitOnChar (sep : Char) : List Char → List (List Char)
  | [] => [[]]
  | c :: cs =>
    let r := splitOnChar sep cs
    if c == sep then [] :: r
    else
      match r with
      | t :: ts => (c :: t) :: ts
      | [] => [[c]]

/-- Python `":" in s` (substring membership of a single character). -/
def hasColon (s : String) : Bool :=
  s.data.any (fun c => c == ':')

/-! ### CC.__parse_deps (clade/extensions/cc.py)

The dependency file is modelled as `Option (List String)`:
`none` when `os.path.isfile` is false, `some lines` otherwise, where
`lines` are the lines of the file without their trailing newlines
(`fp.readline()` at end of file yields the empty string, modelled by
`List.headD ""`; `fp.readlines()` yields the remaining lines, modelled
by `List.tail`).  The `os.remove` of the temporary file is a file-system
effect with no bearing on the returned value and is not modelled. -/

/-- Tail of the regex `[^:]+:(.+)`: scan for the first colon of `cs` and
return what follows it, provided that is nonempty.  (`.` does not match a
newline, and modelled lines contain none.) -/
def headerRest : List Char → Option (List Char)
  | [] => none
  | c :: cs => if c == ':' then (if cs.isEmpty then none else some cs) else headerRest cs

/-- `re.match(r"[^:]+:(.+)", line)`: the first character must not be a
colon (the class `[^:]+` needs at least one character), a colon must
occur, and at least one character must follow the first colon; the
captured group is everything after the first colon. -/
def matchHeaderL : List Char → Option (List Char)
  | [] => none
  | c :: cs => if c == ':' then none else headerRest cs

/-- String-level wrapper of `matchHeaderL`. -/
def matchHeader (s : String) : Option String :=
  (matchHeaderL s.data).map (fun l => ⟨l⟩)

/-- One iteration body of the loop of `CC.__parse_deps` after the colon
check: `dep_line.lstrip(" ")`, then `dep_line.rstrip(" \\\n")`, skip the
line if it is then empty, else `dep_line.split(" ")`. -/
def depLineTokens (l : String) : List String :=
  let cs := l.data.dropWhile (fun c => c == ' ')
  let cs := (cs.reverse.dropWhile (fun c => c == ' ' || c == '\\' || c == '\n')).reverse
  if cs.isEmpty then [] else (splitOnChar ' ' cs).map (fun t => (⟨t⟩ : String))

/-- The `for dep_line in [first_dep_line] + fp.readlines()` loop of
`CC.__parse_deps`: `break` on a line containing a colon, otherwise
extend with that line's tokens. -/
def collectDepLines : List String → List String
  | [] => []
  | l :: ls => if hasColon l then [] else depLineTokens l ++ collectDepLines ls

/-- `CC.__parse_deps` on the modelled dependency file.  A missing file
yields `[]`; an unparsable header raises
`RuntimeError("Dependencies file has unsupported format")`, modelled as
`Except.error`. -/
def parse_deps (file : Option (List String)) : Except String (List String) :=
  match file with
  | none => .ok []
  | some ls =>
    match matchHeader (ls.headD "") with
    | none => .error "Dependencies file has unsupported format"
    | some firstDepLine => .ok (collectDepLines (firstDepLine :: ls.tail))

/-! ### CC.__collect_deps / CC.parse_cmd (clade/extensions/cc.py) -/

/-- A normalized command record as produced by the external `Common`
collaborator: `cmd["id"]`, `cmd["command"]`, `cmd["opts"]`, `cmd["in"]`,
`cmd["cwd"]`. -/
structure Cmd where
  id : String
  command : String
  opts : List String
  ins : List String
  cwd : String
deriving DecidableEq

/-- `"{}-deps.txt".format(cmd_id)` inside the private scratch directory
(the directory component is constant per extension instance and is left
implicit). -/
def depsFileName (cmdId : String) : String := cmdId ++ "-deps.txt"

/-- The two injected flags of `CC.__collect_deps`: dependency emission to
the temporary file plus system-header selection. -/
def additionalOpts (withSystemHeaderFiles : Bool) (depsFile : String) : List String :=
  if withSystemHeaderFiles then ["-Wp,-MD," ++ depsFile, "-M"]
  else ["-Wp,-MMD," ++ depsFile, "-MM"]

/-- `command = [cmd["command"]] + opts + cmd["in"]` with
`opts = cmd["opts"] + additional_opts`. -/
def fullCommand (c : Cmd) (withSystemHeaderFiles : Bool) : List String :=
  c.command :: (c.opts ++ additionalOpts withSystemHeaderFiles (depsFileName c.id)) ++ c.ins

/-- The guard `if "-" not in command and cmd["in"]:` of
`CC.__collect_deps`: the child compiler is invoked exactly when the
assembled command does not contain the bare token `-` and the input list
is nonempty. -/
def runsChild (c : Cmd) (withSystemHeaderFiles : Bool) : Bool :=
  !(fullCommand c withSystemHeaderFiles).contains "-" && !c.ins.isEmpty

/-- `CC.__collect_deps`, returning the content of the dependency file.
The external compiler is an oracle from the assembled command to the
file it may write (`none` when it fails to produce one).  The scratch
directory is fresh per extension instance and command identifiers are
unique within a batch, so when the child is not invoked the dependency
file does not exist. -/
def collect_deps (c : Cmd) (withSystemHeaderFiles : Bool)
    (compiler : List String → Option (List String)) : Option (List String) :=
  if runsChild c withSystemHeaderFiles then compiler (fullCommand c withSystemHeaderFiles)
  else none

/-- `CC.__get_deps`. -/
def get_deps (c : Cmd) (withSystemHeaderFiles : Bool)
    (compiler : List String → Option (List String)) : Except String (List String) :=
  parse_deps (collect_deps c withSystemHeaderFiles compiler)

/-- The persisted `deps/<id>.json` artifacts, keyed by command id. -/
def DepsStore := String → Option (List String)

/-- `CC.dump_deps_by_id`. -/
def dump_deps_by_id (store : DepsStore) (id : String) (deps : List String) : DepsStore :=
  fun j => if j == id then some deps else store j

/-- `CC.parse_cmd`: the external `super().parse_cmd` normalization is the
given `c`, and the external `self.is_bad` verdict is the parameter
`bad`.  A bad command is skipped; otherwise
`deps = set(self.__get_deps(cmd_id, parsed_cmd) + parsed_cmd["in"])` is
dumped under the command id (the Python `set` is modelled by `List.dedup`,
extensionally a finite set).  A `RuntimeError` from parsing propagates
and nothing is dumped.  The separate command-record dump and the optional
source archival do not touch the deps store and are not modelled. -/
def parse_cmd (bad : Bool) (c : Cmd) (withSystemHeaderFiles : Bool)
    (compiler : List String → Option (List String)) (store : DepsStore) :
    Except String DepsStore :=
  if bad then .ok store
  else
    match get_deps c withSystemHeaderFiles compiler with
    | .error e => .error e
    | .ok ds => .ok (dump_deps_by_id store c.id ((ds ++ c.ins).dedup))

/-! ### The default CC.which_list (clade/extensions/cc.py, CC.__init__)

Each default pattern is an anchored regular expression over an
executable name (a string without newline characters, which is what the
anchored `.*` assumes).  Matching one anchored pattern is the same under
`re.match`, `re.search` and `re.fullmatch`, so the embedding is a plain
Boolean predicate per pattern. -/

/-- Consume one or more decimal digits, returning the remainder, as the
regex `\d+` does (ASCII digits). -/
def digits1 (cs : List Char) : Option (List Char) :=
  let ds := cs.takeWhile Char.isDigit
  if ds.isEmpty then none else some (cs.dropWhile Char.isDigit)

/-- One `\.\d+` group. -/
def dotDigits (cs : List Char) : Option (List Char) :=
  match cs with
  | '.' :: rest => digits1 rest
  | _ => none

/-- `\d+(\.\d+){0,2}$`: digits, then at most two dot-digit groups, then
the end of the name.  Greedy matching of these groups is deterministic:
giving back a group leaves a nonempty remainder that cannot reach the
anchor either. -/
def versionCore (cs : List Char) : Bool :=
  match digits1 cs with
  | none => false
  | some r1 =>
    match dotDigits r1 with
    | none => r1.isEmpty
    | some r2 =>
      match dotDigits r2 with
      | none => r2.isEmpty
      | some r3 => r3.isEmpty

/-- `(-?\d+(\.\d+){0,2})?$`: the empty remainder, or an optionally
dash-prefixed version number reaching the end of the name. -/
def versionOpt (cs : List Char) : Bool :=
  match cs with
  | [] => true
  | '-' :: rest => versionCore rest
  | _ => versionCore cs

/-- Suffix test for `cc$`. -/
def ccTail : List Char → Bool
  | ['c', 'c'] => true
  | _ => false

/-- Suffix test for `[mg]cc(-?\d+(\.\d+){0,2})?$`. -/
def gccTail : List Char → Bool
  | c :: 'c' :: 'c' :: rest => (c == 'm' || c == 'g') && versionOpt rest
  | _ => false

/-- Suffix test for `clang(-?\d+(\.\d+){0,2})?$`. -/
def clangTail : List Char → Bool
  | 'c' :: 'l' :: 'a' :: 'n' :: 'g' :: rest => versionOpt rest
  | _ => false

/-- `r"^.*cc$"`: the leading `.*` ranges over every split point, so the
name matches when some suffix satisfies the tail test. -/
def whichMatches1 (s : String) : Bool := s.data.tails.any ccTail

/-- `r"^.*[mg]cc(-?\d+(\.\d+){0,2})?$"`. -/
def whichMatches2 (s : String) : Bool := s.data.tails.any gccTail

/-- `r"^.*clang(-?\d+(\.\d+){0,2})?$"`. -/
def whichMatches3 (s : String) : Bool := s.data.tails.any clangTail

/-- Modelled from the spec: how the external `Common.parse` uses
`CC.which_list` is not under src; per the spec a command qualifies for
CC processing exactly when its executable name matches some pattern of
the list.  With the default list of `CC.__init__` (no `CC.which_list`
configuration key) this is the disjunction of the three default
patterns. -/
def matchesDefaultWhichList (s : String) : Bool :=
  whichMatches1 s || whichMatches2 s || whichMatches3 s

/-! ### Macros (clade/extensions/macros.py)

The nested dictionaries `self.define : file -> macro -> list of
locations` and `self.expand : file -> macro -> {"args": list of
argument lists}` are modelled as total functions defaulting to the empty
list; every insertion stores a nonempty list, so presence of a key is
exactly nonemptiness and the three-way `if file in ... / elif / else`
branches collapse to append-with-default.  The singleton `{"args": ...}`
wrapper of the expansion value carries no further structure and is
dropped. -/

/-- `re.match(r"(\S*) (\S*) (\S*)", line)` of
`Macros.__process_macros_definitions`.  Each `\S*` greedily takes a
maximal (possibly empty) run of non-whitespace; giving characters back
never helps, because the following literal space can only match a
whitespace character, so the match is deterministic.  The pattern is not
anchored at the end: trailing content after the third run is ignored. -/
def matchDef3 (s : String) : Option (String × String × String) :=
  let t1 := s.data.takeWhile pyNonSpace
  match s.data.dropWhile pyNonSpace with
  | ' ' :: r2 =>
    let t2 := r2.takeWhile pyNonSpace
    match r2.dropWhile pyNonSpace with
    | ' ' :: r4 => some (⟨t1⟩, ⟨t2⟩, ⟨r4.takeWhile pyNonSpace⟩)
    | _ => none
  | _ => none

/-- One iteration of the definition loop: a matching line appends its
location under file and macro name; a non-matching line is discarded. -/
def stepDefine (d : String → String → List String) (line : String) :
    String → String → List String :=
  match matchDef3 line with
  | none => d
  | some (f, m, loc) =>
    fun f2 m2 => if f2 == f && m2 == m then d f m ++ [loc] else d f2 m2

/-- `Macros.__process_macros_definitions` over a finite line stream,
starting from the empty `self.define`; the result is queried at a file
and macro name. -/
def processDefinitions (ls : List String) : String → String → List String :=
  ls.foldl stepDefine (fun _ _ => [])

/-- `re.match(r"(\S*) (\S*)(.*)", line)` of
`Macros.__process_macros_expansions`: first run, one literal space,
second run, and the whole remainder of the line as `args_str`. -/
def matchExpandLine (s : String) : Option (String × String × String) :=
  let t1 := s.data.takeWhile pyNonSpace
  match s.data.dropWhile pyNonSpace with
  | ' ' :: r2 => some (⟨t1⟩, ⟨r2.takeWhile pyNonSpace⟩, ⟨r2.dropWhile pyNonSpace⟩)
  | _ => none

/-- `re.match(r" actual_arg\d+=(.*)", arg)`: a literal space and
`actual_arg`, one or more digits (greedily consumed; giving one back
would put a digit where `=` must match), `=`, and the captured value
(possibly empty). -/
def matchActualArg (entry : String) : Option String :=
  let pre := " actual_arg".data
  let cs := entry.data
  if cs.take 11 == pre then
    let r := cs.drop 11
    if (r.takeWhile Char.isDigit).isEmpty then none
    else
      match r.dropWhile Char.isDigit with
      | '=' :: v => some ⟨v⟩
      | _ => none
  else none

/-- The argument scan of `Macros.__process_macros_expansions`:
`if args_str:` guards the split, then each comma-separated entry
matching the argument pattern contributes its captured value, others are
dropped. -/
def parseArgsStr (argsStr : String) : List String :=
  if argsStr.data.isEmpty then []
  else ((splitOnChar ',' argsStr.data).map (fun t => (⟨t⟩ : String))).filterMap matchActualArg

/-- One iteration of the expansion loop: a matching line appends one
argument list (the per-occurrence list) under file and macro name. -/
def stepExpand (e : String → String → List (List String)) (line : String) :
    String → String → List (List String) :=
  match matchExpandLine line with
  | none => e
  | some (f, m, argsStr) =>
    fun f2 m2 => if f2 == f && m2 == m then e f m ++ [parseArgsStr argsStr] else e f2 m2

/-- `Macros.__process_macros_expansions` over a finite line stream. -/
def processExpansions (ls : List String) : String → String → List (List String) :=
  ls.foldl stepExpand (fun _ _ => [])

/-! ### Typedefs (clade/extensions/typedefs.py) -/

/-- The literal pattern head `declaration: typedef `. -/
def typedefHead : List Char := "declaration: typedef ".data

/-- The literal separator `; path: `. -/
def typedefSepChars : List Char := "; path: ".data

/-- The separator occurs at offset `i` of `rest`, with a nonempty
declaration before it (`i` at least 1, since `[^\n]+` needs one
character) and a nonempty path after it. -/
def typedefSepAt (rest : List Char) (i : Nat) : Bool :=
  decide (1 ≤ i) && ((rest.drop i).take typedefSepChars.length == typedefSepChars)
    && decide (i + typedefSepChars.length < rest.length)

/-- `re.match(r"^declaration: typedef ([^\n]+); path: ([^\n]+)", line)`.
The first group is greedy, so the separator is taken at the largest
admissible offset; lines contain no newline, so `[^\n]+` is any nonempty
run of characters. -/
def matchTypedefLine (s : String) : Option (String × String) :=
  let cs := s.data
  if cs.take typedefHead.length == typedefHead then
    let rest := cs.drop typedefHead.length
    match ((List.range rest.length).filter (typedefSepAt rest)).getLast? with
    | some i => some (⟨rest.take i⟩, ⟨rest.drop (i + typedefSepChars.length)⟩)
    | none => none
  else none

/-- One iteration of `Typedefs.__process_typedefs`: a matching line
appends its declaration under the scope file unless an equal declaration
is already recorded there (`elif declaration not in typedefs[scope_file]`);
the `if scope_file not in self.typedefs` branch is the same append on the
empty default. -/
def stepTypedef (t : String → List String) (line : String) : String → List String :=
  match matchTypedefLine line with
  | none => t
  | some (decl, scopeFile) =>
    fun f2 =>
      if f2 == scopeFile then (if decl ∈ t scopeFile then t scopeFile else t scopeFile ++ [decl])
      else t f2

/-- `Typedefs.__process_typedefs` over a finite line stream, starting
from the empty `self.typedefs`. -/
def processTypedefs (ls : List String) : String → List String :=
  ls.foldl stepTypedef (fun _ => [])

/-! ### Extension framework (clade/extensions/abstract.py) -/

/-- The discoverable subclass hierarchy below the `Extension` base, in
first-child / next-sibling form: `node name children next` is a class
named `name` whose direct subclasses are `children`, followed by its
later siblings `next`.  (This renders the Python class graph reachable
from `Extension.__subclasses__()` as one inductive value.) -/
inductive ExtForest where
  | nil : ExtForest
  | node (name : String) (children next : ExtForest) : ExtForest
deriving DecidableEq

/-- `Extension.__get_all_subclasses`: for each direct subclass, append
it and then extend with its own subclasses, recursively, preserving
discovery order.  A discovered class is its name together with its
children. -/
def getAllSubclasses : ExtForest → List (String × ExtForest)
  | .nil => []
  | .node n children next => (n, children) :: (getAllSubclasses children ++ getAllSubclasses next)

/-- `NotImplementedError("Can't find '{}' class".format(ext_name))`. -/
inductive FindError where
  | notImplemented (name : String)
deriving DecidableEq

/-- `Extension.find_subclass`: scan the discovered subclasses in order
and return the first whose name equals the requested name; raise the
not-implemented error when none matches.  (The module re-import that
precedes the scan only populates the hierarchy and is part of the given
forest.) -/
def find_subclass (ext_name : String) (subs : ExtForest) :
    Except FindError (String × ExtForest) :=
  match (getAllSubclasses subs).find? (fun c => ext_name == c.1) with
  | some c => .ok c
  | none => .error (.notImplemented ext_name)

/-- A file system state: the set of existing paths (directories and
files alike, as `os.path.exists` sees them) and the file contents. -/
structure FS where
  paths : List String
  contents : String → Option String

/-- `os.path.exists`. -/
def path_exists (fs : FS) (p : String) : Bool := fs.paths.contains p

/-- `Extension.is_parsed`: `os.path.exists(self.work_dir)`. -/
def is_parsed (fs : FS) (workDir : String) : Bool := path_exists fs workDir

/-- `Macros.parse` (the same guard shape as `Typedefs.parse`): when
`self.is_parsed()` holds the method logs and returns at once; otherwise
it runs the prerequisite pass, the two folds and the dumps, modelled
together as the state transformer `doWork` (their internals involve the
external `Info` collaborator and the artifact layer). -/
def Macros.parse (workDir : String) (doWork : FS → FS) (fs : FS) : FS :=
  if is_parsed fs workDir then fs else doWork fs

/-! ### Claim-side forms (the vocabulary of the specification) -/

/-- The spec form of a dependency-file header line `t: r` with target
`t`: nonempty, colon-free target, a colon, then a nonempty remainder. -/
def specHeaderProp (line remainder : String) : Prop :=
  ∃ target : String,
    line.data = target.data ++ ':' :: remainder.data ∧
    target.data ≠ [] ∧ ':' ∉ target.data ∧ remainder.data ≠ []

/-- A whitespace-free, nonempty token. -/
def isTokenStr (t : String) : Prop :=
  t.data ≠ [] ∧ ∀ c ∈ t.data, pyNonSpace c = true

/-- The claim form of a macro-definition line: exactly three
whitespace-delimited tokens. -/
def threeTokenForm (line f m l : String) : Prop :=
  line.data = f.data ++ ' ' :: m.data ++ ' ' :: l.data ∧
    isTokenStr f ∧ isTokenStr m ∧ isTokenStr l

/-- The claim form of a typedef line, exactly as the claim words it:
`declaration: <decl>; path: <scope file>`. -/
def typedefClaimForm (line decl scopeFile : String) : Prop :=
  line = "declaration: " ++ decl ++ "; path: " ++ scopeFile

/-- Selector of the macro-definition fold: the location contributed to
file `f` and macro `m` by line `l`, if any. -/
def defSel (f m : String) (l : String) : Option String :=
  match matchDef3 l with
  | some (a, b, c) => if a == f && b == m then some c else none
  | none => none

/-- Selector of the macro-expansion fold: the per-occurrence argument
list contributed to file `f` and macro `m` by line `l`, if any. -/
def expandSel (f m : String) (l : String) : Option (List String) :=
  match matchExpandLine l with
  | some (a, b, argsStr) => if a == f && b == m then some (parseArgsStr argsStr) else none
  | none => none

/-- Selector of the typedef fold: the declaration contributed to scope
file `f` by line `l`, if any. -/
def typedefSel (f : String) (l : String) : Option String :=
  match matchTypedefLine l with
  | some (d, g) => if g == f then some d else none
  | none => none

/-- First-occurrence deduplication: keep each string the first time it
appears, preserving that order. -/
def dedupFirst : List String → List String
  | [] => []
  | x :: xs => x :: dedupFirst (xs.filter (fun y => !(y == x)))
termination_by l => l.length
decreasing_by
  simp only [List.length_cons]
  exact Nat.lt_succ_of_le (List.length_filter_le _ _)

/-- Left fold of the typedef insertion step over a list of declarations,
starting from an accumulator: the shape of repeated
`if declaration not in list: list.append(declaration)`. -/
def insertAll (acc : List String) (ds : List String) : List String :=
  ds.foldl (fun a d => if d ∈ a then a else a ++ [d]) acc

/-! ## Theorems -/

theorem no_child_no_deps (c : Cmd) (ws : Bool)
    (compiler : List String → Option (List String)) (store : DepsStore)
    (h : "-" ∈ fullCommand c ws ∨ c.ins = []) :
    runsChild c ws = false ∧ collect_deps c ws compiler = none ∧
      parse_cmd false c ws compiler store =
        .ok (dump_deps_by_id store c.id c.ins.dedup) := by
  have hrun : runsChild c ws = false := by
    rcases h with h | h
    · have hc : (fullCommand c ws).contains "-" = true := by
        simpa [List.contains, List.elem_iff] using h
      unfold runsChild
      rw [hc]
      rfl
    · unfold runsChild
      rw [h]
      simp
  have hcol : collect_deps c ws compiler = none := by
    simp [collect_deps, hrun]
  refine ⟨hrun, hcol, ?_⟩
  simp [parse_cmd, get_deps, hcol, parse_deps]

/-- Claim C1: for every command processed by `CC.parse_cmd` that is not
rejected as bad and whose dependency parse succeeds, the persisted
dependency set under the command identifier is a superset of the
declared input list, whatever dependency listing the compiler emitted
(in particular when it omits declared inputs). -/
theorem cc_deps_superset_of_inputs (c : Cmd) (ws : Bool)
    (compiler : List String → Option (List String)) (store st2 : DepsStore)
    (h : parse_cmd false c ws compiler store = .ok st2) :
    ∃ D, st2 c.id = some D ∧ ∀ x ∈ c.ins, x ∈ D := by
  simp only [parse_cmd, Bool.false_eq_true, if_false] at h
  cases hg : get_deps c ws compiler with
  | error e => rw [hg] at h; cases h
  | ok ds =>
    rw [hg] at h
    cases h
    refine ⟨(ds ++ c.ins).dedup, ?_, ?_⟩
    · simp [dump_deps_by_id]
    · intro x hx
      rw [List.mem_dedup]
      exact List.mem_append_right _ hx

theorem cc_deps_superset_of_inputs_witness :
    ∃ D, dump_deps_by_id (fun _ => none) "1" ((["a.c"] ++ ["a.c", "b.c"]).dedup) "1" =
        some D ∧ ∀ x ∈ ["a.c", "b.c"], x ∈ D :=
  cc_deps_superset_of_inputs ⟨"1", "gcc", [], ["a.c", "b.c"], "."⟩ true
    (fun _ => some ["main.o: a.c"]) (fun _ => none)
    (dump_deps_by_id (fun _ => none) "1" ((["a.c"] ++ ["a.c", "b.c"]).dedup)) rfl

/-- Claim C3: a command whose assembled invocation contains the bare
token `-` (reads from standard input), or which declares no input
files, never invokes the child compiler, its dependency file does not
exist, and the persisted dependency set is exactly the declared input
list. -/
theorem cc_stdin_or_no_inputs_skips_child (c : Cmd) (ws : Bool)
    (compiler : List String → Option (List String)) (store : DepsStore)
    (h : "-" ∈ fullCommand c ws ∨ c.ins = []) :
    runsChild c ws = false ∧ collect_deps c ws compiler = none ∧
      parse_cmd false c ws compiler store =
        .ok (dump_deps_by_id store c.id c.ins.dedup) ∧
      ∀ x, x ∈ c.ins.dedup ↔ x ∈ c.ins := by
  obtain ⟨h1, h2, h3⟩ := no_child_no_deps c ws compiler store h
  exact ⟨h1, h2, h3, fun x => List.mem_dedup⟩

theorem cc_stdin_or_no_inputs_skips_child_witness :
    ("-" ∈ fullCommand ⟨"7", "gcc", [], ["-"], "."⟩ true ∨
        Cmd.ins ⟨"7", "gcc", [], ["-"], "."⟩ = []) ∧
      runsChild ⟨"7", "gcc", [], ["-"], "."⟩ true = false ∧
      collect_deps ⟨"7", "gcc", [], ["-"], "."⟩ true (fun _ => some ["x: y"]) = none ∧
      parse_cmd false ⟨"7", "gcc", [], ["-"], "."⟩ true (fun _ => some ["x: y"])
          (fun _ => none) =
        .ok (dump_deps_by_id (fun _ => none) "7" (["-"] : List String).dedup) := by
  have h : "-" ∈ fullCommand ⟨"7", "gcc", [], ["-"], "."⟩ true ∨
      Cmd.ins ⟨"7", "gcc", [], ["-"], "."⟩ = [] := by
    left; decide
  obtain ⟨h1, h2, h3, _⟩ :=
    cc_stdin_or_no_inputs_skips_child ⟨"7", "gcc", [], ["-"], "."⟩ true
      (fun _ => some ["x: y"]) (fun _ => none) h
  exact ⟨h, h1, h2, h3⟩

/-- Claim C10: the standard-input guard of `CC.__collect_deps` tests the
whole assembled child command for the token `-`, so any command whose
option list contains `-` never invokes the child compiler and its
persisted dependency set degrades to the declared inputs alone, even
when real input files are declared. -/
theorem dash_option_suppresses_child (c : Cmd) (ws : Bool)
    (compiler : List String → Option (List String)) (store : DepsStore)
    (h : "-" ∈ c.opts) :
    runsChild c ws = (!(fullCommand c ws).contains "-" && !c.ins.isEmpty) ∧
      runsChild c ws = false ∧ collect_deps c ws compiler = none ∧
      parse_cmd false c ws compiler store =
        .ok (dump_deps_by_id store c.id c.ins.dedup) ∧
      ∀ x, x ∈ c.ins.dedup ↔ x ∈ c.ins := by
  have hmem : "-" ∈ fullCommand c ws := by
    simp [fullCommand, List.mem_cons, List.mem_append, h]
  obtain ⟨h1, h2, h3⟩ := no_child_no_deps c ws compiler store (Or.inl hmem)
  exact ⟨rfl, h1, h2, h3, fun x => List.mem_dedup⟩

theorem dash_option_suppresses_child_witness :
    "-" ∈ Cmd.opts ⟨"2", "gcc", ["-", "-O2"], ["a.c", "b.c"], "."⟩ ∧
      runsChild ⟨"2", "gcc", ["-", "-O2"], ["a.c", "b.c"], "."⟩ true = false ∧
      parse_cmd false ⟨"2", "gcc", ["-", "-O2"], ["a.c", "b.c"], "."⟩ true
          (fun _ => some ["a.o: a.c x.h"]) (fun _ => none) =
        .ok (dump_deps_by_id (fun _ => none) "2" (["a.c", "b.c"] : List String).dedup) := by
  have h : "-" ∈ Cmd.opts ⟨"2", "gcc", ["-", "-O2"], ["a.c", "b.c"], "."⟩ := by decide
  obtain ⟨_, h2, _, h4, _⟩ :=
    dash_option_suppresses_child ⟨"2", "gcc", ["-", "-O2"], ["a.c", "b.c"], "."⟩ true
      (fun _ => some ["a.o: a.c x.h"]) (fun _ => none) h
  exact ⟨h, h2, h4⟩

/-- Claim C8: `is_parsed` is true exactly when the unit working
directory exists, and re-invoking `parse` on a unit whose working
directory exists takes the skip path: whatever the processing body would
have done, the file system is returned unchanged, every artifact
untouched. -/
theorem is_parsed_iff_workdir_and_skip (fs : FS) (wd : String) (doWork : FS → FS) :
    (is_parsed fs wd = true ↔ path_exists fs wd = true) ∧
      (path_exists fs wd = true →
        Macros.parse wd doWork fs = fs ∧
          ∀ p, (Macros.parse wd doWork fs).contents p = fs.contents p) := by
  refine ⟨Iff.rfl, fun h => ?_⟩
  have : Macros.parse wd doWork fs = fs := by
    simp [Macros.parse, is_parsed, h]
  exact ⟨this, fun p => by rw [this]⟩

theorem is_parsed_iff_workdir_and_skip_witness :
    path_exists ⟨["root/Macros"], fun _ => none⟩ "root/Macros" = true ∧
      Macros.parse "root/Macros" (fun _ => ⟨[], fun _ => none⟩)
          ⟨["root/Macros"], fun _ => none⟩ =
        ⟨["root/Macros"], fun _ => none⟩ := by
  have h : path_exists ⟨["root/Macros"], fun _ => none⟩ "root/Macros" = true := by decide
  exact ⟨h,
    ((is_parsed_iff_workdir_and_skip ⟨["root/Macros"], fun _ => none⟩ "root/Macros"
      (fun _ => ⟨[], fun _ => none⟩)).2 h).1⟩

theorem headerRest_eq_some (cs r : List Char) :
    headerRest cs = some r ↔ ∃ t, cs = t ++ ':' :: r ∧ ':' ∉ t ∧ r ≠ [] := by
  induction cs with
  | nil =>
    simp only [headerRest]
    constructor
    · intro h; cases h
    · rintro ⟨t, ht, -, -⟩
      exact absurd ht (by simp)
  | cons c cs ih =>
    simp only [headerRest]
    by_cases hc : c = ':'
    · subst hc
      rw [if_pos (show ((':' : Char) == ':') = true from rfl)]
      constructor
      · intro h
        by_cases he : cs.isEmpty
        · rw [if_pos he] at h; cases h
        · rw [if_neg he] at h
          cases h
          exact ⟨[], rfl, by simp, fun hnil => he (by simp [hnil])⟩
      · rintro ⟨t, ht, hnot, hr⟩
        cases t with
        | nil =>
          simp only [List.nil_append, List.cons.injEq] at ht
          rw [ht.2]
          rw [if_neg (by simpa [List.isEmpty_iff, ht.2] using hr)]
        | cons a t =>
          simp only [List.cons_append, List.cons.injEq] at ht
          exact absurd (ht.1 ▸ List.mem_cons_self a t) hnot
    · rw [if_neg (by simpa using hc)]
      rw [ih]
      constructor
      · rintro ⟨t, ht, hnot, hr⟩
        exact ⟨c :: t, by simp [ht], by simp [hnot, Ne.symm]; exact fun h => hc h.symm, hr⟩
      · rintro ⟨t, ht, hnot, hr⟩
        cases t with
        | nil =>
          simp only [List.nil_append, List.cons.injEq] at ht
          exact absurd ht.1 hc
        | cons a t =>
          simp only [List.cons_append, List.cons.injEq] at ht
          obtain ⟨rfl, ht2⟩ := ht
          exact ⟨t, ht2, fun hm => hnot (List.mem_cons_of_mem _ hm), hr⟩

theorem matchHeaderL_eq_some (cs r : List Char) :
    matchHeaderL cs = some r ↔
      ∃ t, cs = t ++ ':' :: r ∧ t ≠ [] ∧ ':' ∉ t ∧ r ≠ [] := by
  cases cs with
  | nil =>
    simp only [matchHeaderL]
    constructor
    · intro h; cases h
    · rintro ⟨t, ht, -, -, -⟩
      exact absurd ht (by simp)
  | cons c cs =>
    simp only [matchHeaderL]
    by_cases hc : c = ':'
    · subst hc
      rw [if_pos (show ((':' : Char) == ':') = true from rfl)]
      constructor
      · intro h; cases h
      · rintro ⟨t, ht, htne, hnot, -⟩
        cases t with
        | nil => exact absurd rfl htne
        | cons a t =>
          simp only [List.cons_append, List.cons.injEq] at ht
          exact absurd (ht.1 ▸ List.mem_cons_self a t) hnot
    · rw [if_neg (by simpa using hc)]
      rw [headerRest_eq_some]
      constructor
      · rintro ⟨t, ht, hnot, hr⟩
        refine ⟨c :: t, by simp [ht], by simp, ?_, hr⟩
        intro hm
        rcases List.mem_cons.mp hm with h | h
        · exact hc h.symm
        · exact hnot h
      · rintro ⟨t, ht, -, hnot, hr⟩
        cases t with
        | nil =>
          simp only [List.nil_append, List.cons.injEq] at ht
          exact absurd ht.1 hc
        | cons a t =>
          simp only [List.cons_append, List.cons.injEq] at ht
          obtain ⟨rfl, ht2⟩ := ht
          exact ⟨t, ht2, fun hm => hnot (List.mem_cons_of_mem _ hm), hr⟩

theorem matchHeader_some_iff (s r : String) :
    matchHeader s = some r ↔ specHeaderProp s r := by
  unfold matchHeader specHeaderProp
  constructor
  · intro h
    obtain ⟨l, hl, hmk⟩ := Option.map_eq_some'.mp h
    have hld : l = r.data := by rw [← hmk]
    subst hld
    obtain ⟨t, ht, htne, hnot, hrne⟩ := (matchHeaderL_eq_some _ _).mp hl
    exact ⟨⟨t⟩, ht, htne, hnot, hrne⟩
  · rintro ⟨target, heq, h1, h2, h3⟩
    have : matchHeaderL s.data = some r.data :=
      (matchHeaderL_eq_some _ _).mpr ⟨target.data, heq, h1, h2, h3⟩
    rw [this]
    rfl

theorem matchHeader_none_iff (s : String) :
    matchHeader s = none ↔ ∀ r, ¬ specHeaderProp s r := by
  constructor
  · intro h r hsp
    have hs := (matchHeader_some_iff s r).mpr hsp
    rw [h] at hs
    cases hs
  · intro h
    cases hm : matchHeader s with
    | none => rfl
    | some r => exact absurd ((matchHeader_some_iff s r).mp hm) (h r)

theorem collectDepLines_eq_takeWhile (ls : List String) :
    collectDepLines ls =
      (ls.takeWhile (fun l => !(hasColon l))).flatMap depLineTokens := by
  induction ls with
  | nil => rfl
  | cons l ls ih =>
    simp only [collectDepLines, List.takeWhile_cons]
    by_cases h : hasColon l
    · simp [h]
    · simp only [Bool.not_eq_true] at h
      simp [h, ih]

/-- Claim C2: for an existing dependency file, `CC.__parse_deps` fails
with the format error exactly when the first line does not decompose as
a nonempty colon-free target, a colon, and a nonempty remainder; when it
does, the result is the remainder of the first line plus every following
line up to (excluding) the first line containing a colon, each line
stripped of leading spaces and of a trailing backslash/newline/space
run, skipped when then empty, and split on single spaces. -/
theorem cc_parse_deps_first_target_block (ls : List String) (r : String) :
    (specHeaderProp (ls.headD "") r →
        parse_deps (some ls) =
          .ok (((r :: ls.tail).takeWhile (fun l => !(hasColon l))).flatMap depLineTokens)) ∧
      ((∀ r2, ¬ specHeaderProp (ls.headD "") r2) →
        parse_deps (some ls) = .error "Dependencies file has unsupported format") := by
  constructor
  · intro h
    have hm := (matchHeader_some_iff _ _).mpr h
    simp only [parse_deps, hm]
    rw [collectDepLines_eq_takeWhile]
  · intro h
    have hm := (matchHeader_none_iff _).mpr h
    simp only [parse_deps, hm]

theorem cc_parse_deps_first_target_block_witness :
    specHeaderProp (List.headD ["t: a b", " c \\", "d: x"] "") " a b" ∧
      parse_deps (some ["t: a b", " c \\", "d: x"]) =
        .ok ((([" a b", " c \\"] : List String).takeWhile (fun l => !(hasColon l))).flatMap
          depLineTokens) := by
  have hp : specHeaderProp (List.headD ["t: a b", " c \\", "d: x"] "") " a b" :=
    ⟨"t", by decide, by decide, by decide, by decide⟩
  refine ⟨hp, ?_⟩
  exact (cc_parse_deps_first_target_block ["t: a b", " c \\", "d: x"] " a b").1 hp

theorem foldl_stepDefine (ls : List String) (d : String → String → List String)
    (f m : String) :
    (ls.foldl stepDefine d) f m = d f m ++ ls.filterMap (defSel f m) := by
  induction ls generalizing d with
  | nil => simp
  | cons l ls ih =>
    rw [List.foldl_cons, ih, List.filterMap_cons]
    cases hp : matchDef3 l with
    | none => simp [stepDefine, defSel, hp]
    | some t =>
      obtain ⟨a, b, v⟩ := t
      simp only [stepDefine, defSel, hp]
      by_cases h1 : a = f
      · by_cases h2 : b = m
        · subst h1; subst h2; simp
        · simp only [h1, beq_self_eq_true, Bool.true_and]
          simp [h2]
          exact fun hmb => absurd hmb.symm h2
      · simp [h1]
        exact fun haf _ => absurd haf.symm h1

theorem foldl_stepExpand (ls : List String) (e : String → String → List (List String))
    (f m : String) :
    (ls.foldl stepExpand e) f m = e f m ++ ls.filterMap (expandSel f m) := by
  induction ls generalizing e with
  | nil => simp
  | cons l ls ih =>
    rw [List.foldl_cons, ih, List.filterMap_cons]
    cases hp : matchExpandLine l with
    | none => simp [stepExpand, expandSel, hp]
    | some t =>
      obtain ⟨a, b, v⟩ := t
      simp only [stepExpand, expandSel, hp]
      by_cases h1 : a = f
      · by_cases h2 : b = m
        · subst h1; subst h2; simp
        · simp only [h1, beq_self_eq_true, Bool.true_and]
          simp [h2]
          exact fun hmb => absurd hmb.symm h2
      · simp [h1]
        exact fun haf _ => absurd haf.symm h1

theorem foldl_stepTypedef (ls : List String) (t : String → List String) (f : String) :
    (ls.foldl stepTypedef t) f = insertAll (t f) (ls.filterMap (typedefSel f)) := by
  induction ls generalizing t with
  | nil => simp [insertAll]
  | cons l ls ih =>
    rw [List.foldl_cons, ih, List.filterMap_cons]
    cases hp : matchTypedefLine l with
    | none => simp [stepTypedef, typedefSel, hp]
    | some dg =>
      obtain ⟨d, g⟩ := dg
      simp only [stepTypedef, typedefSel, hp]
      by_cases h1 : g = f
      · subst h1
        simp only [beq_self_eq_true, if_pos]
        rw [show ∀ x xs, insertAll x (d :: xs) =
              insertAll (if d ∈ x then x else x ++ [d]) xs from fun _ _ => rfl]
      · simp [h1, Ne.symm h1]

theorem insertAll_eq_dedupFirst (ds : List String) (acc : List String) :
    insertAll acc ds = acc ++ dedupFirst (ds.filter (fun y => decide (y ∉ acc))) := by
  induction ds generalizing acc with
  | nil => simp [insertAll, dedupFirst]
  | cons d ds ih =>
    rw [show insertAll acc (d :: ds) =
          insertAll (if d ∈ acc then acc else acc ++ [d]) ds from rfl]
    by_cases hd : d ∈ acc
    · rw [if_pos hd, ih]
      have hfd : (d :: ds).filter (fun y => decide (y ∉ acc)) =
          ds.filter (fun y => decide (y ∉ acc)) := by
        simp [List.filter_cons, hd]
      rw [hfd]
    · rw [if_neg hd, ih]
      have hfd : (d :: ds).filter (fun y => decide (y ∉ acc)) =
          d :: ds.filter (fun y => decide (y ∉ acc)) := by
        simp [List.filter_cons, hd]
      rw [hfd, dedupFirst]
      have hsplit : ds.filter (fun y => decide (y ∉ acc ++ [d])) =
          (ds.filter (fun y => decide (y ∉ acc))).filter (fun y => !(y == d)) := by
        rw [List.filter_filter]
        apply List.filter_congr
        intro y _
        by_cases hy : y = d
        · subst hy
          simp [List.mem_append]
        · by_cases hya : y ∈ acc
          · simp [List.mem_append, hya, hy]
          · simp [List.mem_append, hya, hy]
      rw [hsplit]
      simp

theorem insertAll_nil_eq_dedupFirst (ds : List String) :
    insertAll [] ds = dedupFirst ds := by
  have h := insertAll_eq_dedupFirst ds []
  simpa using h

/-- Claim C4 (counterexample to the claim as stated): the fold records a
fact for the line `a b c d`, which is not of the three-token form
`<file> <macro> <location>` under any decomposition; the recorded
location is the third token and the fourth is silently ignored. -/
theorem macros_definitions_extra_token_recorded :
    processDefinitions ["a b c d"] "a" "b" = ["c"] ∧
      ∀ f m l : String, ¬ threeTokenForm "a b c d" f m l := by
  refine ⟨by decide, ?_⟩
  rintro f m l ⟨heq, hf, hm, hl⟩
  have hcount := congrArg (fun t => List.count ' ' t) heq
  have hzf : List.count ' ' f.data = 0 :=
    List.count_eq_zero.mpr (fun hmem => absurd (hf.2 ' ' hmem) (by decide))
  have hzm : List.count ' ' m.data = 0 :=
    List.count_eq_zero.mpr (fun hmem => absurd (hm.2 ' ' hmem) (by decide))
  have hzl : List.count ' ' l.data = 0 :=
    List.count_eq_zero.mpr (fun hmem => absurd (hl.2 ' ' hmem) (by decide))
  simp only [List.count_append, List.count_cons, hzf, hzm, hzl] at hcount
  revert hcount
  decide

/-- Claim C4 (amended): the macro-definition fold records a location
exactly for the lines matched by `(\S*) (\S*) (\S*)` — first three
space-separated, possibly empty runs of non-whitespace, trailing content
ignored — appending under file and macro name in input order with
duplicates kept; all other lines are discarded without error. -/
theorem macros_definitions_fold_characterisation (ls : List String) (f m : String) :
    processDefinitions ls f m = ls.filterMap (defSel f m) ∧
      processDefinitions ["x y z", "x y z"] "x" "y" = ["z", "z"] := by
  refine ⟨?_, by decide⟩
  rw [processDefinitions, foldl_stepDefine]
  rfl

/-- Claim C5 (counterexample to the claim as stated): a line of the
claimed form `declaration: <decl>; path: <scope file>` whose declaration
does not begin with the literal `typedef ` keyword records nothing. -/
theorem typedefs_requires_typedef_keyword :
    typedefClaimForm "declaration: int x; path: f.c" "int x" "f.c" ∧
      processTypedefs ["declaration: int x; path: f.c"] "f.c" = [] := by
  exact ⟨rfl, by decide⟩

/-- Claim C5 (amended): the typedef fold records a fact for the lines
`declaration: typedef <decl>; path: <scope file>` (capturing the
declaration without the `typedef ` keyword), deduplicating by exact
string equality within a scope file with the first occurrence kept and
first-seen order preserved. -/
theorem typedefs_fold_characterisation (ls : List String) (f : String) :
    processTypedefs ls f = dedupFirst (ls.filterMap (typedefSel f)) ∧
      processTypedefs ["declaration: typedef int x; path: f.c",
        "declaration: typedef int x; path: f.c"] "f.c" = ["int x"] := by
  refine ⟨?_, by decide⟩
  rw [processTypedefs, foldl_stepTypedef]
  exact insertAll_nil_eq_dedupFirst _

/-- Claim C6: the macro-expansion fold appends, for every line matched
by `(\S*) (\S*)(.*)`, one argument list per occurrence under file and
macro name, containing exactly the captured values of the
comma-separated entries matching ` actual_argN=<value>` in order;
entries not matching the argument pattern are dropped without error, and
non-matching lines contribute nothing. -/
theorem macros_expansions_fold_characterisation (ls : List String) (f m : String) :
    processExpansions ls f m = ls.filterMap (expandSel f m) ∧
      processExpansions ["f M actual_arg1=x,junk, actual_arg2=y"] "f" "M" = [["x", "y"]] := by
  refine ⟨?_, by decide⟩
  rw [processExpansions, foldl_stepExpand]
  rfl

theorem find?_eq_some_split {α : Type} (p : α → Bool) (l : List α) (c : α)
    (h : l.find? p = some c) :
    p c = true ∧ ∃ l1 l2, l = l1 ++ c :: l2 ∧ ∀ d ∈ l1, p d = false := by
  induction l with
  | nil => cases h
  | cons a l ih =>
    rw [List.find?_cons] at h
    by_cases hp : p a
    · simp only [hp] at h
      cases h
      exact ⟨hp, [], l, rfl, by simp⟩
    · rw [Bool.not_eq_true] at hp
      simp only [hp] at h
      obtain ⟨hc, l1, l2, heq, hall⟩ := ih h
      refine ⟨hc, a :: l1, l2, by simp [heq], ?_⟩
      intro d hd
      rcases List.mem_cons.mp hd with rfl | hd
      · exact hp
      · exact hall d hd

/-- Claim C7: `Extension.find_subclass` returns the first discovered
subtype whose type name equals the requested capability name, and for a
name with no matching subtype it raises the not-implemented error rather
than returning a default. -/
theorem find_subclass_first_match_or_error (subs : ExtForest) (n : String) :
    (∀ c, find_subclass n subs = .ok c →
        c.1 = n ∧ ∃ l1 l2, getAllSubclasses subs = l1 ++ c :: l2 ∧
          ∀ d ∈ l1, d.1 ≠ n) ∧
      ((∀ d ∈ getAllSubclasses subs, d.1 ≠ n) →
        find_subclass n subs = .error (.notImplemented n)) := by
  constructor
  · intro c h
    unfold find_subclass at h
    cases hf : (getAllSubclasses subs).find? (fun c => n == c.1) with
    | none => rw [hf] at h; cases h
    | some c2 =>
      rw [hf] at h
      cases h
      obtain ⟨hp, l1, l2, heq, hall⟩ := find?_eq_some_split _ _ _ hf
      refine ⟨(eq_of_beq hp).symm, l1, l2, heq, ?_⟩
      intro d hd he
      have := hall d hd
      rw [he] at this
      simp at this
  · intro h
    unfold find_subclass
    have hf : (getAllSubclasses subs).find? (fun c => n == c.1) = none := by
      rw [List.find?_eq_none]
      intro x hx
      simpa using fun he => h x hx he.symm
    rw [hf]

theorem find_subclass_first_match_or_error_witness :
    (∀ d ∈ getAllSubclasses
        (.node "Common" (.node "CC" .nil .nil) (.node "Macros" .nil .nil)),
        d.1 ≠ "Storage") ∧
      find_subclass "Storage"
          (.node "Common" (.node "CC" .nil .nil) (.node "Macros" .nil .nil)) =
        .error (.notImplemented "Storage") := by
  have h : ∀ d ∈ getAllSubclasses
      (.node "Common" (.node "CC" .nil .nil) (.node "Macros" .nil .nil)),
      d.1 ≠ "Storage" := by decide
  exact ⟨h, (find_subclass_first_match_or_error
    (.node "Common" (.node "CC" .nil .nil) (.node "Macros" .nil .nil)) "Storage").2 h⟩

/-- Claim C9 (counterexample to the claim as stated): the default
pattern list of `CC.__init__` does not recognize `g++`, plain or
versioned — the second default pattern covers `[mg]cc`, not `g++`. -/
theorem default_which_list_rejects_gxx :
    matchesDefaultWhichList "g++" = false ∧
      matchesDefaultWhichList "g++-9.3" = false := by decide

/-- Claim C9 (amended): under the default configuration a command
qualifies exactly when its executable name matches one of the default
patterns, and those defaults recognize any name ending in `cc` (generic
`cc`), optionally versioned `gcc` (and `mcc`), and optionally versioned
`clang`; `g++` names are not recognized by the defaults. -/
theorem default_which_list_characterisation :
    (∀ s : String, whichMatches1 s = true → matchesDefaultWhichList s = true) ∧
      (∀ v : List Char, versionOpt v = true →
        matchesDefaultWhichList ⟨'g' :: 'c' :: 'c' :: v⟩ = true) ∧
      (∀ v : List Char, versionOpt v = true →
        matchesDefaultWhichList ⟨'c' :: 'l' :: 'a' :: 'n' :: 'g' :: v⟩ = true) ∧
      matchesDefaultWhichList "cc" = true ∧
      matchesDefaultWhichList "gcc-4.9.2" = true ∧
      matchesDefaultWhichList "clang-11" = true ∧
      matchesDefaultWhichList "g++" = false ∧
      matchesDefaultWhichList "g++-9" = false := by
  refine ⟨?_, ?_, ?_, by decide, by decide, by decide, by decide, by decide⟩
  · intro s h
    simp [matchesDefaultWhichList, h]
  · intro v hv
    have h2 : whichMatches2 ⟨'g' :: 'c' :: 'c' :: v⟩ = true := by
      unfold whichMatches2
      rw [List.any_eq_true]
      refine ⟨'g' :: 'c' :: 'c' :: v, ?_, ?_⟩
      · exact (List.mem_tails _ _).mpr (List.suffix_refl _)
      · simp [gccTail, hv]
    simp [matchesDefaultWhichList, h2]
  · intro v hv
    have h3 : whichMatches3 ⟨'c' :: 'l' :: 'a' :: 'n' :: 'g' :: v⟩ = true := by
      unfold whichMatches3
      rw [List.any_eq_true]
      refine ⟨'c' :: 'l' :: 'a' :: 'n' :: 'g' :: v, ?_, ?_⟩
      · exact (List.mem_tails _ _).mpr (List.suffix_refl _)
      · simp [clangTail, hv]
    simp [matchesDefaultWhichList, h3]

theorem default_which_list_characterisation_witness :
    versionOpt ['-', '1', '0'] = true ∧
      matchesDefaultWhichList ⟨['g', 'c', 'c', '-', '1', '0']⟩ = true :=
  ⟨by decide, default_which_list_characterisation.2.1 ['-', '1', '0'] (by decide)⟩

end Clade
